import Mathlib

/-!
Shallow embedding of `data_manager_corenlp_models.py`, the Galaxy data
manager that downloads Stanford CoreNLP model JARs and registers them in a
JSON manifest.  Filesystem and network are modelled explicitly: the set of
files on disk is a list of paths, the network is a fetch oracle mapping a
URL to success or failure, and `Path.absolute` is an uninterpreted function
on path strings.  Python string primitives (`str.strip`, `str.startswith`,
`str.split('\t')`) are embedded as structurally recursive functions on the
character list of a string.
-/

namespace CoreNLP

/-- Python `str.split('\t')` on the character list: `[] ↦ [[]]` matches
Python, where `"".split('\t') = ['']`. -/
def splitTab : List Char → List (List Char)
  | [] => [[]]
  | c :: cs =>
    if c = '\t' then [] :: splitTab cs
    else
      match splitTab cs with
      | [] => [[c]]
      | f :: r => (c :: f) :: r

/-- Python `str.strip()` (whitespace from both ends). -/
def pyStrip (s : String) : String :=
  ⟨((s.data.dropWhile Char.isWhitespace).reverse.dropWhile Char.isWhitespace).reverse⟩

/-- Python `line.startswith('#')`. -/
def startsHash (s : String) : Bool :=
  match s.data with
  | [] => false
  | c :: _ => c = '#'

/-- Python `line.split('\t')`, as a list of strings. -/
def splitTabS (s : String) : List String := (splitTab s.data).map String.mk

/-- One catalog record: display name, archive file name, download URL. -/
structure ModelEntry where
  name : String
  jar_name : String
  url : String
deriving DecidableEq, Repr

def CORENLP_VERSION : String := "4.5.10"

def mavenBase : String :=
  "https://repo1.maven.org/maven2/edu/stanford/nlp/stanford-corenlp/" ++ CORENLP_VERSION ++ "/"

/-- The `COMMON_MODELS` catalog constant. -/
def COMMON_MODELS : ModelEntry :=
  { name := "Common Models"
    jar_name := "stanford-corenlp-" ++ CORENLP_VERSION ++ "-models.jar"
    url := mavenBase ++ "stanford-corenlp-" ++ CORENLP_VERSION ++ "-models.jar" }

def langEntry (display : String) (suffix : String) : ModelEntry :=
  { name := display
    jar_name := "stanford-corenlp-" ++ CORENLP_VERSION ++ "-models-" ++ suffix ++ ".jar"
    url := mavenBase ++ "stanford-corenlp-" ++ CORENLP_VERSION ++ "-models-" ++ suffix ++ ".jar" }

/-- The `LANGUAGE_MODELS` dict, as an association list in insertion order. -/
def LANGUAGE_MODELS : List (String × ModelEntry) :=
  [ ("ar", langEntry "Arabic" "arabic")
  , ("zh", langEntry "Chinese" "chinese")
  , ("en", langEntry "English" "english")
  , ("fr", langEntry "French" "french")
  , ("de", langEntry "German" "german")
  , ("hu", langEntry "Hungarian" "hungarian")
  , ("it", langEntry "Italian" "italian")
  , ("es", langEntry "Spanish" "spanish") ]

/-- `LANGUAGE_MODELS[code]`, as an option. -/
def lookupModel (code : String) : Option ModelEntry :=
  (LANGUAGE_MODELS.find? (fun p => p.1 == code)).map (fun p => p.2)

/-- Loop body of `load_existing_models`: strip the line, skip it when empty
or starting with `#`, otherwise add the first tab-delimited field. -/
def addLine (s : Finset String) (line : String) : Finset String :=
  let l := pyStrip line
  if l ≠ "" ∧ ¬ startsHash l then
    match (splitTabS l).head? with
    | some p => insert p s
    | none => s
  else s

/-- `load_existing_models(data_table_path)`.  `files` is the filesystem:
the lines of each existing text file.  An absent path or a missing file
yields the empty set. -/
def load_existing_models (files : String → Option (List String))
    (data_table_path : Option String) : Finset String :=
  match data_table_path with
  | none => ∅
  | some p =>
    match files p with
    | none => ∅
    | some lines => lines.foldl addLine ∅

/-- One output record of the data manager (`data_table_entries` element). -/
structure RegisteredEntry where
  value : String
  name : String
  lang_code : String
  models_path : String
deriving DecidableEq, Repr

/-- Mutable state of `main`'s processing loops: files on disk, URLs passed
to `download_model` in order, and the accumulated `data_table_entries`. -/
structure St where
  fs : List String
  downloads : List String
  entries : List RegisteredEntry
deriving DecidableEq, Repr

/-- The common-models branch of `main` (lines 136-168).  The fetch oracle
`fetchOk` tells whether `download_model` succeeds for a URL; on success the
destination file appears on disk.  The entry is registered whether or not
the download succeeded. -/
def processCommon (existing : Finset String) (target_directory : String)
    (absPath : String → String) (fetchOk : String → Bool) (st : St) : St :=
  if "common" ∈ existing then st
  else
    let jar_path := target_directory ++ "/" ++ COMMON_MODELS.jar_name
    let st1 :=
      if jar_path ∈ st.fs then st
      else if fetchOk COMMON_MODELS.url then
        { st with fs := jar_path :: st.fs, downloads := st.downloads ++ [COMMON_MODELS.url] }
      else { st with downloads := st.downloads ++ [COMMON_MODELS.url] }
    { st1 with entries := st1.entries ++
        [{ value := "common", name := COMMON_MODELS.name, lang_code := "common",
           models_path := absPath jar_path }] }

/-- The per-language loop body of `main` (lines 172-209).  A failed
download `continue`s: no entry is registered for that occurrence. -/
def processLanguage (existing : Finset String) (target_directory : String)
    (absPath : String → String) (fetchOk : String → Bool) (st : St)
    (lang_code : String) : St :=
  if lang_code ∈ existing then st
  else
    match lookupModel lang_code with
    | none => st
    | some model_info =>
      let jar_path := target_directory ++ "/" ++ model_info.jar_name
      if jar_path ∈ st.fs then
        { st with entries := st.entries ++
            [{ value := lang_code, name := model_info.name, lang_code := lang_code,
               models_path := absPath jar_path }] }
      else if fetchOk model_info.url then
        { fs := jar_path :: st.fs
          downloads := st.downloads ++ [model_info.url]
          entries := st.entries ++
            [{ value := lang_code, name := model_info.name, lang_code := lang_code,
               models_path := absPath jar_path }] }
      else { st with downloads := st.downloads ++ [model_info.url] }

/-- The parsed command line.  `language` collects the repeated
`--language` flags in order (Python's `None` becomes `[]`); the two
required paths are present by construction, mirroring `required=True`. -/
structure Args where
  language : List String
  common_models : Bool
  target_directory : String
  output : String
  data_table : Option String
deriving DecidableEq, Repr

/-- Minimal JSON values, enough for the fixed output shape. -/
inductive Json where
  | str : String → Json
  | arr : List Json → Json
  | obj : List (String × Json) → Json
deriving Repr

/-- JSON object for one data-table entry. -/
def entryJson (e : RegisteredEntry) : Json :=
  Json.obj [("value", Json.str e.value), ("name", Json.str e.name),
            ("lang_code", Json.str e.lang_code), ("models_path", Json.str e.models_path)]

/-- The `data_manager_output` dict built at lines 212-216. -/
def data_manager_output (entries : List RegisteredEntry) : Json :=
  Json.obj [("data_tables", Json.obj [("corenlp_models", Json.arr (entries.map entryJson))])]

/-- Observable outcome of one run: whether it exited with a usage error,
which filesystem and network effects happened, and the written output. -/
structure RunResult where
  usageError : Bool
  mkdirCalled : Bool
  dataTableLoaded : Bool
  downloads : List String
  entries : List RegisteredEntry
  output : Option Json

/-- Outcome of `parser.error` / an argparse choices failure: the process
exits non-zero before any filesystem or network action. -/
def usageResult : RunResult :=
  { usageError := true, mkdirCalled := false, dataTableLoaded := false,
    downloads := [], entries := [], output := none }

/-- The existing-entries set of a run (`existing_models` at line 126). -/
def existingOf (files : String → Option (List String)) (args : Args) : Finset String :=
  load_existing_models files args.data_table

/-- State after the common-models track (`st0` is the initial disk state,
empty download log and empty entry list). -/
def runSt1 (files : String → Option (List String)) (fs0 : List String)
    (fetchOk : String → Bool) (absPath : String → String) (args : Args) : St :=
  if args.common_models then
    processCommon (existingOf files args) args.target_directory absPath fetchOk
      { fs := fs0, downloads := [], entries := [] }
  else { fs := fs0, downloads := [], entries := [] }

/-- State after both tracks. -/
def runSt (files : String → Option (List String)) (fs0 : List String)
    (fetchOk : String → Bool) (absPath : String → String) (args : Args) : St :=
  args.language.foldl
    (processLanguage (existingOf files args) args.target_directory absPath fetchOk)
    (runSt1 files fs0 fetchOk absPath args)

/-- `main()`.  Argparse validates every `--language` value against the
`choices` of the catalog before anything else runs; then the
at-least-one-option check fires; only after both does the run load the
data table, create the target directory, process the two tracks, and
write the JSON output. -/
def main (files : String → Option (List String)) (fs0 : List String)
    (fetchOk : String → Bool) (absPath : String → String) (args : Args) : RunResult :=
  if args.language.all (fun c => (lookupModel c).isSome) then
    if args.language.isEmpty && !args.common_models then usageResult
    else
      { usageError := false, mkdirCalled := true, dataTableLoaded := true,
        downloads := (runSt files fs0 fetchOk absPath args).downloads,
        entries := (runSt files fs0 fetchOk absPath args).entries,
        output := some (data_manager_output (runSt files fs0 fetchOk absPath args).entries) }
  else usageResult

/-! ### Catalog facts -/

theorem lookup_mem {c : String} {mi : ModelEntry} (h : lookupModel c = some mi) :
    (c, mi) ∈ LANGUAGE_MODELS := by
  unfold lookupModel at h
  rcases hf : LANGUAGE_MODELS.find? (fun p => p.1 == c) with _ | p
  · rw [hf] at h; exact absurd h (by simp)
  · rw [hf] at h
    have hp : p.1 = c := by have := List.find?_some hf; simpa using this
    have hm := List.mem_of_find?_eq_some hf
    have hp2 : p.2 = mi := by simpa using h
    have : p = (c, mi) := by
      cases p; simp only at hp hp2; rw [hp, hp2]
    rwa [this] at hm

theorem jar_pairwise : ∀ p ∈ LANGUAGE_MODELS, ∀ q ∈ LANGUAGE_MODELS,
    p.2.jar_name = q.2.jar_name → p.1 = q.1 := by decide

theorem url_pairwise : ∀ p ∈ LANGUAGE_MODELS, ∀ q ∈ LANGUAGE_MODELS,
    p.2.url = q.2.url → p.1 = q.1 := by decide

theorem jar_common_ne : ∀ p ∈ LANGUAGE_MODELS, ¬ p.2.jar_name = COMMON_MODELS.jar_name := by
  decide

theorem url_common_ne : ∀ p ∈ LANGUAGE_MODELS, ¬ p.2.url = COMMON_MODELS.url := by decide

theorem lookup_common_none : lookupModel "common" = none := by decide

theorem jar_inj {c c' : String} {mi mi' : ModelEntry} (h : lookupModel c = some mi)
    (h' : lookupModel c' = some mi') (e : mi.jar_name = mi'.jar_name) : c = c' :=
  jar_pairwise (c, mi) (lookup_mem h) (c', mi') (lookup_mem h') e

theorem url_inj {c c' : String} {mi mi' : ModelEntry} (h : lookupModel c = some mi)
    (h' : lookupModel c' = some mi') (e : mi.url = mi'.url) : c = c' :=
  url_pairwise (c, mi) (lookup_mem h) (c', mi') (lookup_mem h') e

theorem string_append_cancel_left {s t u : String} (h : s ++ t = s ++ u) : t = u := by
  have hd : s.data ++ t.data = s.data ++ u.data := by
    have := congrArg String.data h
    simpa [String.data_append] using this
  exact congrArg String.mk (List.append_cancel_left hd)

/-- Equal destination paths under the same target directory come from equal
jar names. -/
theorem path_inj {td a b : String} (h : td ++ "/" ++ a = td ++ "/" ++ b) : a = b :=
  string_append_cancel_left h

/-! ### Existing-entries loader -/

/-- A line contributes its first column iff it is non-empty after stripping
and does not begin with `#`. -/
def goodLine (l : String) : Prop :=
  pyStrip l ≠ "" ∧ startsHash (pyStrip l) = false

instance (l : String) : Decidable (goodLine l) := by unfold goodLine; infer_instance

/-- First tab-delimited field of the stripped line. -/
def firstField (l : String) : Option String := (splitTabS (pyStrip l)).head?

theorem mem_addLine {s : Finset String} {l x : String} :
    x ∈ addLine s l ↔ x ∈ s ∨ (goodLine l ∧ firstField l = some x) := by
  unfold addLine goodLine firstField
  by_cases hg : pyStrip l ≠ "" ∧ ¬ startsHash (pyStrip l)
  · simp only [if_pos hg]
    rcases hh : (splitTabS (pyStrip l)).head? with _ | p
    · simp [hh, hg.1, hg.2]
    · simp only [hh, Finset.mem_insert]
      constructor
      · rintro (rfl | hx)
        · exact Or.inr ⟨⟨hg.1, by simpa using hg.2⟩, rfl⟩
        · exact Or.inl hx
      · rintro (hx | ⟨_, hp⟩)
        · exact Or.inr hx
        · exact Or.inl (by injection hp with hp; exact hp.symm)
  · simp only [if_neg hg]
    constructor
    · exact Or.inl
    · rintro (hx | ⟨⟨h1, h2⟩, _⟩)
      · exact hx
      · exact absurd ⟨h1, by simpa using h2⟩ hg

theorem mem_foldl_addLine {ls : List String} {s : Finset String} {x : String} :
    x ∈ ls.foldl addLine s ↔ x ∈ s ∨ ∃ l ∈ ls, goodLine l ∧ firstField l = some x := by
  induction ls generalizing s with
  | nil => simp
  | cons l ls ih =>
    rw [List.foldl_cons, ih, mem_addLine]
    constructor
    · rintro ((hx | hl) | ⟨m, hm, hg⟩)
      · exact Or.inl hx
      · exact Or.inr ⟨l, by simp, hl⟩
      · exact Or.inr ⟨m, by simp [hm], hg⟩
    · rintro (hx | ⟨m, hm, hg⟩)
      · exact Or.inl (Or.inl hx)
      · rcases List.mem_cons.mp hm with rfl | hm
        · exact Or.inl (Or.inr hg)
        · exact Or.inr ⟨m, hm, hg⟩

/-! ### Orchestrator step and fold lemmas -/

/-- The entry registered for language `c` with catalog record `mi`. -/
def langReg (td : String) (ap : String → String) (c : String) (mi : ModelEntry) :
    RegisteredEntry :=
  { value := c, name := mi.name, lang_code := c, models_path := ap (td ++ "/" ++ mi.jar_name) }

/-- The entry registered for the common models. -/
def commonReg (td : String) (ap : String → String) : RegisteredEntry :=
  { value := "common", name := COMMON_MODELS.name, lang_code := "common",
    models_path := ap (td ++ "/" ++ COMMON_MODELS.jar_name) }

section Orchestrator

variable (E : Finset String) (td : String) (ap : String → String) (fo : String → Bool)

/-- Exhaustive case analysis of one per-language step. -/
theorem processLanguage_spec (st : St) (c : String) :
    (processLanguage E td ap fo st c = st ∧ (c ∈ E ∨ lookupModel c = none)) ∨
    ∃ mi, lookupModel c = some mi ∧ c ∉ E ∧
      ((td ++ "/" ++ mi.jar_name ∈ st.fs ∧
          processLanguage E td ap fo st c =
            { st with entries := st.entries ++ [langReg td ap c mi] }) ∨
       (td ++ "/" ++ mi.jar_name ∉ st.fs ∧ fo mi.url = true ∧
          processLanguage E td ap fo st c =
            { fs := (td ++ "/" ++ mi.jar_name) :: st.fs
              downloads := st.downloads ++ [mi.url]
              entries := st.entries ++ [langReg td ap c mi] }) ∨
       (td ++ "/" ++ mi.jar_name ∉ st.fs ∧ fo mi.url = false ∧
          processLanguage E td ap fo st c =
            { st with downloads := st.downloads ++ [mi.url] })) := by
  by_cases hc : c ∈ E
  · exact Or.inl ⟨by simp [processLanguage, hc], Or.inl hc⟩
  · rcases hl : lookupModel c with _ | mi
    · exact Or.inl ⟨by simp [processLanguage, hc, hl], Or.inr rfl⟩
    · refine Or.inr ⟨mi, rfl, hc, ?_⟩
      by_cases hjp : td ++ "/" ++ mi.jar_name ∈ st.fs
      · exact Or.inl ⟨hjp, by simp [processLanguage, hc, hl, hjp, langReg]⟩
      · by_cases hfo : fo mi.url
        · exact Or.inr (Or.inl ⟨hjp, hfo, by simp [processLanguage, hc, hl, hjp, hfo, langReg]⟩)
        · exact Or.inr (Or.inr ⟨hjp, by simpa using hfo,
            by simp [processLanguage, hc, hl, hjp, hfo]⟩)

/-- A per-language step never removes files from disk. -/
theorem processLanguage_fs_mono {st : St} {x : String} (c : String) (hx : x ∈ st.fs) :
    x ∈ (processLanguage E td ap fo st c).fs := by
  rcases processLanguage_spec E td ap fo st c with ⟨heq, _⟩ |
    ⟨mi, _, _, ⟨_, heq⟩ | ⟨_, _, heq⟩ | ⟨_, _, heq⟩⟩ <;> rw [heq] <;> simp [hx]

/-- Every entry accumulated by the per-language loop is either inherited
from the starting state or is the registration of some requested code that
was not in the existing set. -/
theorem foldl_entries_spec {l : List String} {st : St} {e : RegisteredEntry}
    (he : e ∈ (l.foldl (processLanguage E td ap fo) st).entries) :
    e ∈ st.entries ∨ ∃ c ∈ l, c ∉ E ∧ ∃ mi, lookupModel c = some mi ∧
      e = langReg td ap c mi := by
  induction l generalizing st with
  | nil => exact Or.inl he
  | cons c l ih =>
    rw [List.foldl_cons] at he
    rcases ih he with hin | ⟨c', hc', hne, mi', hl', rfl⟩
    · rcases processLanguage_spec E td ap fo st c with ⟨heq, _⟩ |
        ⟨mi, hl, hc, ⟨_, heq⟩ | ⟨_, _, heq⟩ | ⟨_, _, heq⟩⟩
      · rw [heq] at hin; exact Or.inl hin
      · rw [heq] at hin
        rcases List.mem_append.mp hin with hin | hin
        · exact Or.inl hin
        · exact Or.inr ⟨c, by simp, hc, mi, hl, by simpa using hin⟩
      · rw [heq] at hin
        rcases List.mem_append.mp hin with hin | hin
        · exact Or.inl hin
        · exact Or.inr ⟨c, by simp, hc, mi, hl, by simpa using hin⟩
      · rw [heq] at hin; exact Or.inl hin
    · exact Or.inr ⟨c', by simp [hc'], hne, mi', hl', rfl⟩

/-- Every URL handed to the Fetcher by the per-language loop is either
inherited or is the catalog URL of some requested code not in the existing
set. -/
theorem foldl_downloads_spec {l : List String} {st : St} {u : String}
    (hu : u ∈ (l.foldl (processLanguage E td ap fo) st).downloads) :
    u ∈ st.downloads ∨ ∃ c ∈ l, c ∉ E ∧ ∃ mi, lookupModel c = some mi ∧ u = mi.url := by
  induction l generalizing st with
  | nil => exact Or.inl hu
  | cons c l ih =>
    rw [List.foldl_cons] at hu
    rcases ih hu with hin | ⟨c', hc', hne, mi', hl', rfl⟩
    · rcases processLanguage_spec E td ap fo st c with ⟨heq, _⟩ |
        ⟨mi, hl, hc, ⟨_, heq⟩ | ⟨_, _, heq⟩ | ⟨_, _, heq⟩⟩
      · rw [heq] at hin; exact Or.inl hin
      · rw [heq] at hin; exact Or.inl hin
      · rw [heq] at hin
        rcases List.mem_append.mp hin with hin | hin
        · exact Or.inl hin
        · exact Or.inr ⟨c, by simp, hc, mi, hl, by simpa using hin⟩
      · rw [heq] at hin
        rcases List.mem_append.mp hin with hin | hin
        · exact Or.inl hin
        · exact Or.inr ⟨c, by simp, hc, mi, hl, by simpa using hin⟩
    · exact Or.inr ⟨c', by simp [hc'], hne, mi', hl', rfl⟩

/-- Every file on disk after the per-language loop was on disk before or is
the destination path of some catalog record. -/
theorem foldl_fs_spec {l : List String} {st : St} {x : String}
    (hx : x ∈ (l.foldl (processLanguage E td ap fo) st).fs) :
    x ∈ st.fs ∨ ∃ c ∈ l, ∃ mi, lookupModel c = some mi ∧ x = td ++ "/" ++ mi.jar_name := by
  induction l generalizing st with
  | nil => exact Or.inl hx
  | cons c l ih =>
    rw [List.foldl_cons] at hx
    rcases ih hx with hin | ⟨c', hc', mi', hl', rfl⟩
    · rcases processLanguage_spec E td ap fo st c with ⟨heq, _⟩ |
        ⟨mi, hl, hc, ⟨_, heq⟩ | ⟨_, _, heq⟩ | ⟨_, _, heq⟩⟩
      · rw [heq] at hin; exact Or.inl hin
      · rw [heq] at hin; exact Or.inl hin
      · rw [heq] at hin
        rcases List.mem_cons.mp hin with rfl | hin
        · exact Or.inr ⟨c, by simp, mi, hl, rfl⟩
        · exact Or.inl hin
      · rw [heq] at hin; exact Or.inl hin
    · exact Or.inr ⟨c', by simp [hc'], mi', hl', rfl⟩

/-- The language codes of the accumulated entries extend the starting ones
by a sublist of the processed codes: entries appear in processing order,
at most one per occurrence. -/
theorem foldl_entries_order (l : List String) (st : St) :
    ∃ t, (l.foldl (processLanguage E td ap fo) st).entries.map (fun e => e.lang_code) =
        st.entries.map (fun e => e.lang_code) ++ t ∧ List.Sublist t l := by
  induction l generalizing st with
  | nil => exact ⟨[], by simp, List.nil_sublist []⟩
  | cons c l ih =>
    rw [List.foldl_cons]
    rcases processLanguage_spec E td ap fo st c with ⟨heq, _⟩ |
      ⟨mi, hl, hc, ⟨_, heq⟩ | ⟨_, _, heq⟩ | ⟨_, _, heq⟩⟩ <;> rw [heq] <;>
      obtain ⟨t, ht, hsub⟩ := ih _
    · exact ⟨t, by rw [ht], hsub.cons c⟩
    · exact ⟨c :: t, by rw [ht]; simp [langReg], hsub.cons₂ c⟩
    · exact ⟨c :: t, by rw [ht]; simp [langReg], hsub.cons₂ c⟩
    · exact ⟨t, by rw [ht], hsub.cons c⟩

/-- If code `c` is not in the existing set and its destination file is on
disk or its download succeeds, every occurrence of `c` registers exactly
one entry. -/
theorem foldl_register_all {l : List String} {st : St} {c : String} {mi : ModelEntry}
    (hc : c ∉ E) (hl : lookupModel c = some mi)
    (hstart : td ++ "/" ++ mi.jar_name ∈ st.fs ∨ fo mi.url = true) :
    (l.foldl (processLanguage E td ap fo) st).entries.countP (fun e => e.lang_code == c) =
        st.entries.countP (fun e => e.lang_code == c) + l.count c ∧
    (td ++ "/" ++ mi.jar_name ∈ (l.foldl (processLanguage E td ap fo) st).fs ∨
        fo mi.url = true) := by
  induction l generalizing st with
  | nil => exact ⟨by simp, hstart⟩
  | cons c' l ih =>
    rw [List.foldl_cons]
    by_cases hcc : c' = c
    · subst hcc
      rcases processLanguage_spec E td ap fo st c' with ⟨heq, hE | hnone⟩ |
        ⟨mi', hl', _, ⟨hjp, heq⟩ | ⟨hjp, hfo, heq⟩ | ⟨hjp, hfo, heq⟩⟩
      · exact absurd hE hc
      · rw [hl] at hnone; exact absurd hnone (by simp)
      · rw [hl] at hl'
        have hmi : mi' = mi := by injection hl' with h; exact h.symm
        subst hmi
        rcases @ih (processLanguage E td ap fo st c') (Or.inl (by rw [heq]; exact hjp))
          with ⟨hcount, hinv⟩
        refine ⟨?_, hinv⟩
        rw [hcount, heq]
        simp [List.countP_append, langReg, List.count_cons_self]
        omega
      · rw [hl] at hl'
        have hmi : mi' = mi := by injection hl' with h; exact h.symm
        subst hmi
        rcases @ih (processLanguage E td ap fo st c') (Or.inl (by rw [heq]; simp))
          with ⟨hcount, hinv⟩
        refine ⟨?_, hinv⟩
        rw [hcount, heq]
        simp [List.countP_append, langReg, List.count_cons_self]
        omega
      · rw [hl] at hl'
        have hmi : mi' = mi := by injection hl' with h; exact h.symm
        subst hmi
        rcases hstart with hjp' | hfo'
        · exact absurd hjp' hjp
        · rw [hfo'] at hfo; exact absurd hfo (by simp)
    · have hcount_cons : (c' :: l).count c = l.count c := by
        simp [List.count_cons, hcc]
      rcases processLanguage_spec E td ap fo st c' with ⟨heq, _⟩ |
        ⟨mi', hl', _, ⟨hjp, heq⟩ | ⟨hjp, hfo, heq⟩ | ⟨hjp, hfo, heq⟩⟩
      · rcases @ih (processLanguage E td ap fo st c')
          (by rw [heq]; exact hstart) with ⟨hcount, hinv⟩
        exact ⟨by rw [hcount, heq, hcount_cons], hinv⟩
      · rcases @ih (processLanguage E td ap fo st c')
          (by rw [heq]; rcases hstart with h | h; exact Or.inl h; exact Or.inr h)
          with ⟨hcount, hinv⟩
        refine ⟨?_, hinv⟩
        rw [hcount, heq, hcount_cons]
        simp [List.countP_append, langReg, hcc]
      · rcases @ih (processLanguage E td ap fo st c')
          (by rw [heq]
              rcases hstart with h | h
              · exact Or.inl (List.mem_cons_of_mem _ h)
              · exact Or.inr h) with ⟨hcount, hinv⟩
        refine ⟨?_, hinv⟩
        rw [hcount, heq, hcount_cons]
        simp [List.countP_append, langReg, hcc]
      · rcases @ih (processLanguage E td ap fo st c')
          (by rw [heq]; exact hstart) with ⟨hcount, hinv⟩
        exact ⟨by rw [hcount, heq, hcount_cons], hinv⟩

/-- Once the destination file of `c` is on disk, the loop never downloads
`c`'s URL again (and the file stays on disk). -/
theorem foldl_no_download {l : List String} {st : St} {c : String} {mi : ModelEntry}
    (hl : lookupModel c = some mi) (hfs : td ++ "/" ++ mi.jar_name ∈ st.fs)
    (hdl : mi.url ∉ st.downloads) :
    mi.url ∉ (l.foldl (processLanguage E td ap fo) st).downloads ∧
    td ++ "/" ++ mi.jar_name ∈ (l.foldl (processLanguage E td ap fo) st).fs := by
  induction l generalizing st with
  | nil => exact ⟨hdl, hfs⟩
  | cons c' l ih =>
    rw [List.foldl_cons]
    rcases processLanguage_spec E td ap fo st c' with ⟨heq, _⟩ |
      ⟨mi', hl', _, ⟨hjp, heq⟩ | ⟨hjp, hfo, heq⟩ | ⟨hjp, hfo, heq⟩⟩ <;> rw [heq]
    · exact ih hfs hdl
    · exact ih hfs hdl
    · refine ih (List.mem_cons_of_mem _ hfs) ?_
      intro hmem
      rcases List.mem_append.mp hmem with h | h
      · exact hdl h
      · have hu : mi.url = mi'.url := by simpa using h
        have : c = c' := url_inj hl hl' hu
        subst this
        rw [hl] at hl'
        have : mi = mi' := by injection hl'
        subst this
        exact hjp hfs
    · refine ih hfs ?_
      intro hmem
      rcases List.mem_append.mp hmem with h | h
      · exact hdl h
      · have hu : mi.url = mi'.url := by simpa using h
        have : c = c' := url_inj hl hl' hu
        subst this
        rw [hl] at hl'
        have : mi = mi' := by injection hl'
        subst this
        exact hjp hfs

/-- One step reads only the files and writes only files and entries: two
states agreeing on those agree after the step. -/
theorem processLanguage_congr {st₁ st₂ : St} (c : String) (hfs : st₁.fs = st₂.fs)
    (hen : st₁.entries = st₂.entries) :
    (processLanguage E td ap fo st₁ c).fs = (processLanguage E td ap fo st₂ c).fs ∧
    (processLanguage E td ap fo st₁ c).entries = (processLanguage E td ap fo st₂ c).entries := by
  by_cases hc : c ∈ E
  · simp [processLanguage, hc, hfs, hen]
  · rcases hl : lookupModel c with _ | mi
    · simp [processLanguage, hc, hl, hfs, hen]
    · by_cases hjp : td ++ "/" ++ mi.jar_name ∈ st₂.fs
      · simp [processLanguage, hc, hl, hfs, hen, hjp]
      · by_cases hfo : fo mi.url <;> simp [processLanguage, hc, hl, hfs, hen, hjp, hfo]

/-- A code whose download always fails and whose destination file is never
on disk leaves files and entries exactly as if its occurrences had been
dropped from the requested list. -/
theorem foldl_skip_failed {c : String} {mi : ModelEntry} (hl : lookupModel c = some mi)
    (hfo : fo mi.url = false) :
    ∀ (l : List String) (st₁ st₂ : St), st₁.fs = st₂.fs → st₁.entries = st₂.entries →
      td ++ "/" ++ mi.jar_name ∉ st₁.fs →
      (l.foldl (processLanguage E td ap fo) st₁).fs =
        ((l.filter (fun x => x ≠ c)).foldl (processLanguage E td ap fo) st₂).fs ∧
      (l.foldl (processLanguage E td ap fo) st₁).entries =
        ((l.filter (fun x => x ≠ c)).foldl (processLanguage E td ap fo) st₂).entries := by
  intro l
  induction l with
  | nil => intro st₁ st₂ hfs hen _; exact ⟨hfs, hen⟩
  | cons c' l ih =>
    intro st₁ st₂ hfs hen hjp
    by_cases hcc : c' = c
    · subst hcc
      have hfilter : (c' :: l).filter (fun x => x ≠ c') = l.filter (fun x => x ≠ c') := by
        simp
      rw [hfilter, List.foldl_cons]
      rcases processLanguage_spec E td ap fo st₁ c' with ⟨heq, _⟩ |
        ⟨mi', hl', _, ⟨hjp', heq⟩ | ⟨hjp', hfo', heq⟩ | ⟨hjp', hfo', heq⟩⟩
      · rw [heq]; exact ih st₁ st₂ hfs hen hjp
      · rw [hl] at hl'
        have : mi' = mi := by injection hl' with h; exact h.symm
        subst this
        exact absurd hjp' hjp
      · rw [hl] at hl'
        have : mi' = mi := by injection hl' with h; exact h.symm
        subst this
        rw [hfo] at hfo'; exact absurd hfo' (by simp)
      · rw [heq]
        exact ih { st₁ with downloads := st₁.downloads ++ [mi'.url] } st₂ hfs hen hjp
    · have hfilter : (c' :: l).filter (fun x => x ≠ c) = c' :: l.filter (fun x => x ≠ c) := by
        simp [hcc]
      rw [hfilter, List.foldl_cons, List.foldl_cons]
      rcases processLanguage_congr E td ap fo c' hfs hen with ⟨hfs', hen'⟩
      refine ih (processLanguage E td ap fo st₁ c') (processLanguage E td ap fo st₂ c')
        hfs' hen' ?_
      intro hmem
      rcases processLanguage_spec E td ap fo st₁ c' with ⟨heq, _⟩ |
        ⟨mi', hl', _, ⟨hjp', heq⟩ | ⟨hjp', hfo', heq⟩ | ⟨hjp', hfo', heq⟩⟩ <;>
        rw [heq] at hmem
      · exact hjp hmem
      · exact hjp hmem
      · rcases List.mem_cons.mp hmem with hpath | hmem
        · exact (hcc ((jar_inj hl hl' (path_inj hpath)).symm)).elim
        · exact hjp hmem
      · exact hjp hmem

/-- Exhaustive description of the common-models branch. -/
theorem processCommon_spec (st : St) :
    ("common" ∈ E ∧ processCommon E td ap fo st = st) ∨
    ("common" ∉ E ∧
      (processCommon E td ap fo st).entries = st.entries ++ [commonReg td ap] ∧
      (∀ x ∈ st.fs, x ∈ (processCommon E td ap fo st).fs) ∧
      (∀ x ∈ (processCommon E td ap fo st).fs,
        x ∈ st.fs ∨ x = td ++ "/" ++ COMMON_MODELS.jar_name) ∧
      (∀ u ∈ (processCommon E td ap fo st).downloads,
        u ∈ st.downloads ∨ u = COMMON_MODELS.url)) := by
  by_cases hc : "common" ∈ E
  · exact Or.inl ⟨hc, by simp [processCommon, hc]⟩
  · refine Or.inr ⟨hc, ?_, ?_, ?_, ?_⟩
    · by_cases hjp : td ++ "/" ++ COMMON_MODELS.jar_name ∈ st.fs
      · simp [processCommon, hc, hjp, commonReg]
      · by_cases hfo : fo COMMON_MODELS.url <;> simp [processCommon, hc, hjp, hfo, commonReg]
    · intro x hx
      by_cases hjp : td ++ "/" ++ COMMON_MODELS.jar_name ∈ st.fs
      · simpa [processCommon, hc, hjp] using hx
      · by_cases hfo : fo COMMON_MODELS.url <;> simp [processCommon, hc, hjp, hfo, hx]
    · intro x hx
      by_cases hjp : td ++ "/" ++ COMMON_MODELS.jar_name ∈ st.fs
      · simp only [processCommon, if_neg hc, if_pos hjp] at hx
        exact Or.inl hx
      · by_cases hfo : fo COMMON_MODELS.url <;>
          simp only [processCommon, if_neg hc, if_neg hjp, if_pos, if_neg, hfo] at hx
        · rcases List.mem_cons.mp (by simpa using hx) with h | h
          · exact Or.inr h
          · exact Or.inl h
        · exact Or.inl (by simpa using hx)
    · intro u hu
      by_cases hjp : td ++ "/" ++ COMMON_MODELS.jar_name ∈ st.fs
      · simp only [processCommon, if_neg hc, if_pos hjp] at hu
        exact Or.inl hu
      · by_cases hfo : fo COMMON_MODELS.url <;>
          simp [processCommon, hc, hjp, hfo] at hu <;> simpa using hu

end Orchestrator

/-! ### Main-branch lemmas -/

theorem main_ok (files : String → Option (List String)) (fs0 : List String)
    (fo : String → Bool) (ap : String → String) (args : Args)
    (h1 : (args.language.all fun c => (lookupModel c).isSome) = true)
    (h2 : (args.language.isEmpty && !args.common_models) = false) :
    main files fs0 fo ap args =
      { usageError := false, mkdirCalled := true, dataTableLoaded := true,
        downloads := (runSt files fs0 fo ap args).downloads,
        entries := (runSt files fs0 fo ap args).entries,
        output := some (data_manager_output (runSt files fs0 fo ap args).entries) } := by
  simp [main, h1, h2]

theorem main_usage_invalid (files : String → Option (List String)) (fs0 : List String)
    (fo : String → Bool) (ap : String → String) (args : Args)
    (h1 : (args.language.all fun c => (lookupModel c).isSome) = false) :
    main files fs0 fo ap args = usageResult := by
  simp [main, h1]

theorem main_usage_empty (files : String → Option (List String)) (fs0 : List String)
    (fo : String → Bool) (ap : String → String) (args : Args)
    (h2 : (args.language.isEmpty && !args.common_models) = true) :
    main files fs0 fo ap args = usageResult := by
  by_cases h1 : (args.language.all fun c => (lookupModel c).isSome) <;> simp [main, h1, h2]

/-! ### Common-track state lemmas -/

theorem runSt1_entries_spec (files : String → Option (List String)) (fs0 : List String)
    (fo : String → Bool) (ap : String → String) (args : Args) :
    (runSt1 files fs0 fo ap args).entries = [] ∨
    (args.common_models = true ∧ "common" ∉ existingOf files args ∧
      (runSt1 files fs0 fo ap args).entries = [commonReg args.target_directory ap]) := by
  unfold runSt1
  by_cases hcm : args.common_models
  · rcases processCommon_spec (existingOf files args) args.target_directory ap fo
      { fs := fs0, downloads := [], entries := [] } with ⟨hc, heq⟩ | ⟨hc, hen, _⟩
    · simp [hcm, heq]
    · exact Or.inr ⟨by simpa using hcm, hc, by simpa [hcm] using hen⟩
  · simp [hcm]

theorem runSt1_downloads_spec (files : String → Option (List String)) (fs0 : List String)
    (fo : String → Bool) (ap : String → String) (args : Args) :
    ∀ u ∈ (runSt1 files fs0 fo ap args).downloads, u = COMMON_MODELS.url := by
  unfold runSt1
  by_cases hcm : args.common_models
  · rcases processCommon_spec (existingOf files args) args.target_directory ap fo
      { fs := fs0, downloads := [], entries := [] } with ⟨hc, heq⟩ | ⟨hc, _, _, _, hdl⟩
    · simp [hcm, heq]
    · intro u hu
      rcases hdl u (by simpa [hcm] using hu) with h | h
      · exact absurd h (by simp)
      · exact h
  · simp [hcm]

theorem runSt1_fs_spec (files : String → Option (List String)) (fs0 : List String)
    (fo : String → Bool) (ap : String → String) (args : Args) :
    ∀ x ∈ (runSt1 files fs0 fo ap args).fs,
      x ∈ fs0 ∨ x = args.target_directory ++ "/" ++ COMMON_MODELS.jar_name := by
  unfold runSt1
  by_cases hcm : args.common_models
  · rcases processCommon_spec (existingOf files args) args.target_directory ap fo
      { fs := fs0, downloads := [], entries := [] } with ⟨hc, heq⟩ | ⟨hc, _, _, hfs, _⟩
    · simp only [hcm, if_true, heq]
      exact fun x hx => Or.inl hx
    · intro x hx
      exact hfs x (by simpa [hcm] using hx)
  · simp only [hcm, if_false, Bool.false_eq_true]
    exact fun x hx => Or.inl hx

theorem runSt1_fs_mono (files : String → Option (List String)) (fs0 : List String)
    (fo : String → Bool) (ap : String → String) (args : Args) :
    ∀ x ∈ fs0, x ∈ (runSt1 files fs0 fo ap args).fs := by
  unfold runSt1
  by_cases hcm : args.common_models
  · rcases processCommon_spec (existingOf files args) args.target_directory ap fo
      { fs := fs0, downloads := [], entries := [] } with ⟨hc, heq⟩ | ⟨hc, _, hmono, _, _⟩
    · simp [hcm, heq]
    · intro x hx
      simpa [hcm] using hmono x hx
  · simp [hcm]

theorem runSt1_entries_common (files : String → Option (List String)) (fs0 : List String)
    (fo : String → Bool) (ap : String → String) (args : Args)
    (hcm : args.common_models = true) (hex : "common" ∉ existingOf files args) :
    (runSt1 files fs0 fo ap args).entries = [commonReg args.target_directory ap] := by
  unfold runSt1
  rcases processCommon_spec (existingOf files args) args.target_directory ap fo
    { fs := fs0, downloads := [], entries := [] } with ⟨hc, _⟩ | ⟨_, hen, _⟩
  · exact absurd hc hex
  · simpa [hcm] using hen

/-- The catalog URL an identifier would be fetched from: the common URL
for the sentinel `"common"`, else the looked-up language URL. -/
def urlFor (ident : String) : Option String :=
  if ident = "common" then some COMMON_MODELS.url
  else (lookupModel ident).map (fun m => m.url)

/-! ### Claim theorems -/

/-- Claim C7: the Existing-Entries Loader never fails; it returns the empty
set when the path is absent or the file does not exist, and otherwise it
returns exactly the set of first tab-delimited fields of the stripped
lines that are non-empty and do not begin with `#` (duplicates collapse by
set semantics; a line without a tab contributes its whole stripped text).
All of this is packaged as a membership characterization: the right-hand
side is false whenever the path is absent or the file is missing. -/
theorem load_existing_models_contract (files : String → Option (List String))
    (path : Option String) (x : String) :
    x ∈ load_existing_models files path ↔
      ∃ p ls, path = some p ∧ files p = some ls ∧
        ∃ l ∈ ls, goodLine l ∧ firstField l = some x := by
  rcases path with _ | p
  · simp [load_existing_models]
  · rcases hf : files p with _ | lines
    · simp [load_existing_models, hf]
    · simp only [load_existing_models, hf]
      rw [mem_foldl_addLine]
      simp [hf]

/-- Claim C8: the run exits with a usage error iff no common-models flag
and no language is supplied, or some supplied code is not in the catalog;
in the unsupported-code case the error happens before any filesystem or
network action (no directory creation, no data-table read, no download, no
output file). -/
theorem usage_error_iff_spec (files : String → Option (List String)) (fs0 : List String)
    (fo : String → Bool) (ap : String → String) (args : Args) :
    ((main files fs0 fo ap args).usageError = true ↔
      (args.language = [] ∧ args.common_models = false) ∨
        ∃ c ∈ args.language, lookupModel c = none) ∧
    ((∃ c ∈ args.language, lookupModel c = none) →
      main files fs0 fo ap args = usageResult) := by
  constructor
  · by_cases h1 : (args.language.all fun c => (lookupModel c).isSome)
    · by_cases h2 : (args.language.isEmpty && !args.common_models)
      · rw [main_usage_empty files fs0 fo ap args h2]
        refine iff_of_true rfl (Or.inl ?_)
        exact ⟨by simpa [List.isEmpty_iff] using (by simpa using h2 : _ ∧ _).1,
          by simpa using (by simpa using h2 : _ ∧ _).2⟩
      · rw [main_ok files fs0 fo ap args h1 (by simpa using h2)]
        refine iff_of_false (by simp) ?_
        rintro (⟨he, hc⟩ | ⟨c, hcl, hnone⟩)
        · exact h2 (by simp [he, hc])
        · have := List.all_eq_true.mp h1 c hcl
          rw [hnone] at this
          exact absurd this (by simp)
    · have hF : (args.language.all fun c => (lookupModel c).isSome) = false := by
        rwa [Bool.not_eq_true] at h1
      rw [main_usage_invalid files fs0 fo ap args hF]
      refine iff_of_true rfl ?_
      rcases List.all_eq_false.mp hF with ⟨c, hcl, hc⟩
      refine Or.inr ⟨c, hcl, ?_⟩
      rcases h : lookupModel c with _ | mi
      · rfl
      · rw [h] at hc; exact absurd (by simp : (some mi).isSome = true) hc
  · rintro ⟨c, hcl, hnone⟩
    refine main_usage_invalid files fs0 fo ap args ?_
    refine List.all_eq_false.mpr ⟨c, hcl, ?_⟩
    simp [hnone]

/-- Witness for C8 at a concrete unsupported code. -/
theorem usage_error_iff_spec_witness :
    main (fun _ => none) [] (fun _ => true) (fun s => s)
      { language := ["xx"], common_models := false, target_directory := "t",
        output := "o", data_table := none } = usageResult :=
  (usage_error_iff_spec (fun _ => none) [] (fun _ => true) (fun s => s)
    { language := ["xx"], common_models := false, target_directory := "t",
      output := "o", data_table := none }).2 ⟨"xx", by decide, by decide⟩

/-- Claim C9: whenever the run reaches the Manifest Writer (no usage
error), the output is written and has the fixed well-formed shape with the
`data_tables.corenlp_models` array, whatever the entry list is (in
particular for zero entries). -/
theorem manifest_always_written (files : String → Option (List String)) (fs0 : List String)
    (fo : String → Bool) (ap : String → String) (args : Args)
    (h : (main files fs0 fo ap args).usageError = false) :
    (main files fs0 fo ap args).output =
      some (Json.obj [("data_tables", Json.obj [("corenlp_models",
        Json.arr ((main files fs0 fo ap args).entries.map entryJson))])]) := by
  by_cases h1 : (args.language.all fun c => (lookupModel c).isSome)
  · by_cases h2 : (args.language.isEmpty && !args.common_models)
    · rw [main_usage_empty files fs0 fo ap args h2] at h
      exact absurd h (by simp [usageResult])
    · rw [main_ok files fs0 fo ap args h1 (by simpa using h2)]
      simp [data_manager_output]
  · rw [main_usage_invalid files fs0 fo ap args (by simpa using h1)] at h
    exact absurd h (by simp [usageResult])

/-- Witness for C9 on a zero-entry run: the common models are already in
the data table, so no entry is registered, yet the output is written with
an empty `corenlp_models` array. -/
theorem manifest_always_written_witness :
    (main (fun p => if p = "dt" then some ["common\tCommon Models\tcommon\t/x"] else none)
      [] (fun _ => true) (fun s => s)
      { language := [], common_models := true, target_directory := "t",
        output := "o", data_table := some "dt" }).output =
      some (Json.obj [("data_tables", Json.obj [("corenlp_models",
        Json.arr ((main (fun p => if p = "dt" then some ["common\tCommon Models\tcommon\t/x"] else none)
          [] (fun _ => true) (fun s => s)
          { language := [], common_models := true, target_directory := "t",
            output := "o", data_table := some "dt" }).entries.map entryJson))])]) :=
  manifest_always_written
    (fun p => if p = "dt" then some ["common\tCommon Models\tcommon\t/x"] else none)
    [] (fun _ => true) (fun s => s)
    { language := [], common_models := true, target_directory := "t",
      output := "o", data_table := some "dt" } (by decide)

/-- Counterexample to claim C6 as stated: with neither `--common-models`
nor any `--language`, `parser.error` fires before the `mkdir` at line 130,
so the target directory is NOT created on the usage-error path. -/
theorem usage_error_mkdir_cex :
    (main (fun _ => none) [] (fun _ => false) (fun s => s)
      { language := [], common_models := false, target_directory := "t",
        output := "o", data_table := none }).usageError = true ∧
    (main (fun _ => none) [] (fun _ => false) (fun s => s)
      { language := [], common_models := false, target_directory := "t",
        output := "o", data_table := none }).mkdirCalled = false := by
  constructor <;> rfl

/-- Claim C6 (amended): when neither the common-models flag nor any
language code is supplied, the program fails fast with a usage error
before touching the network or the filesystem — including target-directory
creation, which is also skipped on this path because `mkdir` runs only
after the usage check passes. -/
theorem usage_error_before_any_side_effect (files : String → Option (List String))
    (fs0 : List String) (fo : String → Bool) (ap : String → String) (args : Args)
    (h1 : args.language = []) (h2 : args.common_models = false) :
    main files fs0 fo ap args = usageResult :=
  main_usage_empty files fs0 fo ap args (by simp [h1, h2])

/-- Witness for C6 (amended) at a concrete input. -/
theorem usage_error_before_any_side_effect_witness :
    main (fun _ => none) [] (fun _ => false) (fun s => s)
      { language := [], common_models := false, target_directory := "t",
        output := "o", data_table := none } = usageResult :=
  usage_error_before_any_side_effect (fun _ => none) [] (fun _ => false) (fun s => s)
    { language := [], common_models := false, target_directory := "t",
      output := "o", data_table := none } rfl rfl

/-- Claim C3: an identifier (the sentinel `"common"` or a requested
language code) that is already in the existing set gets no registered
entry and no download attempt. -/
theorem existing_identifier_skipped (files : String → Option (List String))
    (fs0 : List String) (fo : String → Bool) (ap : String → String) (args : Args)
    (ident : String) (hid : ident = "common" ∨ ident ∈ args.language)
    (hex : ident ∈ existingOf files args) :
    (∀ e ∈ (main files fs0 fo ap args).entries, e.lang_code ≠ ident) ∧
    (∀ u, urlFor ident = some u → u ∉ (main files fs0 fo ap args).downloads) := by
  by_cases h1 : (args.language.all fun c => (lookupModel c).isSome)
  · by_cases h2 : (args.language.isEmpty && !args.common_models)
    · rw [main_usage_empty files fs0 fo ap args h2]
      exact ⟨by simp [usageResult], by simp [usageResult]⟩
    · rw [main_ok files fs0 fo ap args h1 (by simpa using h2)]
      constructor
      · intro e he heq
        rcases foldl_entries_spec (existingOf files args) args.target_directory ap fo he
          with hin | ⟨c, _, hcE, mi, hlk, rfl⟩
        · rcases runSt1_entries_spec files fs0 fo ap args with hnil | ⟨_, hcE, hone⟩
          · rw [hnil] at hin; exact absurd hin (by simp)
          · rw [hone] at hin
            have : e = commonReg args.target_directory ap := by simpa using hin
            rw [this] at heq
            have : ident = "common" := by simpa [commonReg] using heq.symm
            rw [this] at hex
            exact hcE hex
        · have : c = ident := by simpa [langReg] using heq
          rw [this] at hcE
          exact hcE hex
      · intro u hurl hmem
        rcases foldl_downloads_spec (existingOf files args) args.target_directory ap fo hmem
          with hin | ⟨c, _, hcE, mi, hlk, rfl⟩
        · have hu : u = COMMON_MODELS.url := runSt1_downloads_spec files fs0 fo ap args u hin
          by_cases hcom : ident = "common"
          · refine absurd hin ?_
            rw [hcom] at hex
            unfold runSt1
            by_cases hcm : args.common_models
            · rcases processCommon_spec (existingOf files args) args.target_directory ap fo
                { fs := fs0, downloads := [], entries := [] } with ⟨_, heq⟩ | ⟨hc, _, _⟩
              · simp [hcm, heq]
              · exact absurd hex hc
            · simp [hcm]
          · rcases hurl' : lookupModel ident with _ | mi0
            · unfold urlFor at hurl; rw [if_neg hcom, hurl'] at hurl
              exact absurd hurl (by simp)
            · unfold urlFor at hurl; rw [if_neg hcom, hurl'] at hurl
              have hu0 : u = mi0.url := by simpa using hurl.symm
              rw [hu] at hu0
              exact url_common_ne (ident, mi0) (lookup_mem hurl') hu0.symm
        · by_cases hcom : ident = "common"
          · unfold urlFor at hurl; rw [if_pos hcom] at hurl
            have hu : mi.url = COMMON_MODELS.url := by simpa using hurl.symm
            exact url_common_ne (c, mi) (lookup_mem hlk) hu
          · rcases hurl' : lookupModel ident with _ | mi0
            · unfold urlFor at hurl; rw [if_neg hcom, hurl'] at hurl
              exact absurd hurl (by simp)
            · unfold urlFor at hurl; rw [if_neg hcom, hurl'] at hurl
              have hu0 : mi.url = mi0.url := by simpa using hurl.symm
              have : c = ident := url_inj hlk hurl' hu0
              rw [this] at hcE
              exact hcE hex
  · rw [main_usage_invalid files fs0 fo ap args (by rwa [Bool.not_eq_true] at h1)]
    exact ⟨by simp [usageResult], by simp [usageResult]⟩

/-- Witness for C3: `"en"` is in the data table, and the run for
`["en"]` registers nothing for `"en"` and downloads nothing for it. -/
theorem existing_identifier_skipped_witness :
    (∀ e ∈ (main (fun p => if p = "dt" then some ["en\tEnglish\ten\t/x"] else none)
      [] (fun _ => true) (fun s => s)
      { language := ["en"], common_models := false, target_directory := "t",
        output := "o", data_table := some "dt" }).entries, e.lang_code ≠ "en") ∧
    (∀ u, urlFor "en" = some u →
      u ∉ (main (fun p => if p = "dt" then some ["en\tEnglish\ten\t/x"] else none)
        [] (fun _ => true) (fun s => s)
        { language := ["en"], common_models := false, target_directory := "t",
          output := "o", data_table := some "dt" }).downloads) :=
  existing_identifier_skipped
    (fun p => if p = "dt" then some ["en\tEnglish\ten\t/x"] else none)
    [] (fun _ => true) (fun s => s)
    { language := ["en"], common_models := false, target_directory := "t",
      output := "o", data_table := some "dt" }
    "en" (Or.inr (by decide)) (by decide)

/-- Claim C5: manifest entries appear in processing order — the common
entry (when requested) first, then at most one entry per requested code in
request order; and the fresh run requesting common models and
`["en", "fr"]` yields exactly the three entries `common, en, fr` in that
order. -/
theorem entries_processing_order (files : String → Option (List String))
    (fs0 : List String) (fo : String → Bool) (ap : String → String) (args : Args) :
    List.Sublist ((main files fs0 fo ap args).entries.map (fun e => e.lang_code))
      ((if args.common_models then ["common"] else []) ++ args.language) ∧
    (main (fun _ => none) [] (fun _ => true) ap
      { language := ["en", "fr"], common_models := true, target_directory := "t",
        output := "o", data_table := none }).entries.map (fun e => e.lang_code) =
      ["common", "en", "fr"] := by
  constructor
  · by_cases h1 : (args.language.all fun c => (lookupModel c).isSome)
    · by_cases h2 : (args.language.isEmpty && !args.common_models)
      · rw [main_usage_empty files fs0 fo ap args h2]
        simp [usageResult]
      · rw [main_ok files fs0 fo ap args h1 (by simpa using h2)]
        rcases foldl_entries_order (existingOf files args) args.target_directory ap fo
          args.language (runSt1 files fs0 fo ap args) with ⟨t, ht, hsub⟩
        unfold runSt
        rw [ht]
        rcases runSt1_entries_spec files fs0 fo ap args with hnil | ⟨hcm, _, hone⟩
        · rw [hnil]
          simpa using (List.nil_sublist (if args.common_models then ["common"] else [])).append
            hsub
        · rw [hone, hcm]
          simpa [commonReg] using
            (List.Sublist.refl ["common"]).append hsub
    · rw [main_usage_invalid files fs0 fo ap args (by rwa [Bool.not_eq_true] at h1)]
      simp [usageResult]
  · rfl

/-- Claim C1: when the common track is reached (flag set, `"common"` not in
the existing set), the entry for `"common"` is registered exactly once even
though the destination file was absent and the download failed. -/
theorem common_registered_despite_failed_download (files : String → Option (List String))
    (fs0 : List String) (fo : String → Bool) (ap : String → String) (args : Args)
    (hcm : args.common_models = true)
    (hval : (args.language.all fun c => (lookupModel c).isSome) = true)
    (hex : "common" ∉ existingOf files args)
    (hfile : args.target_directory ++ "/" ++ COMMON_MODELS.jar_name ∉ fs0)
    (hfo : fo COMMON_MODELS.url = false) :
    (main files fs0 fo ap args).entries.countP (fun e => e.lang_code == "common") = 1 := by
  rw [main_ok files fs0 fo ap args hval (by simp [hcm])]
  rcases foldl_entries_order (existingOf files args) args.target_directory ap fo
    args.language (runSt1 files fs0 fo ap args) with ⟨t, ht, hsub⟩
  have hmap : (runSt files fs0 fo ap args).entries.map (fun e => e.lang_code) =
      "common" :: t := by
    unfold runSt
    rw [ht, runSt1_entries_common files fs0 fo ap args hcm hex]
    simp [commonReg]
  have hcount : ((runSt files fs0 fo ap args).entries.map
      (fun e => e.lang_code)).countP (fun s => s == "common") =
      (runSt files fs0 fo ap args).entries.countP (fun e => e.lang_code == "common") :=
    List.countP_map _ _ _
  rw [← hcount, hmap]
  have ht0 : t.countP (fun s => s == "common") = 0 := by
    refine List.countP_eq_zero.mpr ?_
    intro s hs
    have hsl : s ∈ args.language := hsub.subset hs
    have := List.all_eq_true.mp hval s hsl
    intro hbeq
    have hsc : s = "common" := by simpa using hbeq
    rw [hsc, lookup_common_none] at this
    exact absurd this (by simp)
  simp [List.countP_cons, ht0]

/-- Witness for C1: fresh run, only the common flag, every download fails;
the manifest still holds exactly one entry for `"common"`. -/
theorem common_registered_despite_failed_download_witness :
    (main (fun _ => none) [] (fun _ => false) (fun s => s)
      { language := [], common_models := true, target_directory := "t",
        output := "o", data_table := none }).entries.countP
      (fun e => e.lang_code == "common") = 1 :=
  common_registered_despite_failed_download (fun _ => none) [] (fun _ => false)
    (fun s => s)
    { language := [], common_models := true, target_directory := "t",
      output := "o", data_table := none }
    rfl (by decide) (by decide) (by decide) rfl

/-- Claim C10: deduplication is only against the existing set, not within
the request: every occurrence of a requested code outside the existing set
whose file is on disk or whose download succeeds registers one entry, so
the entry count for that code equals its occurrence count. -/
theorem duplicates_register_per_occurrence (files : String → Option (List String))
    (fs0 : List String) (fo : String → Bool) (ap : String → String) (args : Args)
    (c : String) (mi : ModelEntry)
    (hval : (args.language.all fun x => (lookupModel x).isSome) = true)
    (hex : c ∉ existingOf files args)
    (hl : lookupModel c = some mi)
    (hok : args.target_directory ++ "/" ++ mi.jar_name ∈ fs0 ∨ fo mi.url = true) :
    (main files fs0 fo ap args).entries.countP (fun e => e.lang_code == c) =
      args.language.count c := by
  by_cases h2 : (args.language.isEmpty && !args.common_models)
  · rw [main_usage_empty files fs0 fo ap args h2]
    have : args.language = [] := by
      simpa [List.isEmpty_iff] using (by simpa using h2 : _ ∧ _).1
    simp [usageResult, this]
  · rw [main_ok files fs0 fo ap args hval (by simpa using h2)]
    have hstart : args.target_directory ++ "/" ++ mi.jar_name ∈
        (runSt1 files fs0 fo ap args).fs ∨ fo mi.url = true := by
      rcases hok with h | h
      · exact Or.inl (runSt1_fs_mono files fs0 fo ap args _ h)
      · exact Or.inr h
    rcases @foldl_register_all (existingOf files args) args.target_directory ap fo
      args.language (runSt1 files fs0 fo ap args) c mi hex hl hstart
      with ⟨hcount, _⟩
    unfold runSt
    rw [hcount]
    have hz : (runSt1 files fs0 fo ap args).entries.countP
        (fun e => e.lang_code == c) = 0 := by
      refine List.countP_eq_zero.mpr ?_
      intro e he hbeq
      have hc' : e.lang_code = c := by simpa using hbeq
      rcases runSt1_entries_spec files fs0 fo ap args with hnil | ⟨_, _, hone⟩
      · rw [hnil] at he; exact absurd he (by simp)
      · rw [hone] at he
        have : e = commonReg args.target_directory ap := by simpa using he
        rw [this] at hc'
        have : c = "common" := by simpa [commonReg] using hc'.symm
        rw [this, lookup_common_none] at hl
        exact absurd hl (by simp)
    rw [hz, Nat.zero_add]

/-- Witness for C10: `"en"` requested twice on a fresh run with all
downloads succeeding — two `en` entries result (the first occurrence
downloads the file, the second sees it on disk and registers again). -/
theorem duplicates_register_per_occurrence_witness :
    (main (fun _ => none) [] (fun _ => true) (fun s => s)
      { language := ["en", "en"], common_models := false, target_directory := "t",
        output := "o", data_table := none }).entries.countP
      (fun e => e.lang_code == "en") =
      (["en", "en"] : List String).count "en" :=
  duplicates_register_per_occurrence (fun _ => none) [] (fun _ => true) (fun s => s)
    { language := ["en", "en"], common_models := false, target_directory := "t",
      output := "o", data_table := none }
    "en" (langEntry "English" "english") (by decide) (by decide) (by decide)
    (Or.inr rfl)

/-- Counterexample to claim C4 as stated: `"en"` is requested (twice), is
not in the existing set, and its destination file is already on disk, yet
the run produces two entries with `lang_code = "en"`, not exactly one —
the loop deduplicates only against the existing set, not within the
request. -/
theorem existing_file_exactly_one_entry_cex :
    "en" ∈ ["en", "en"] ∧
    "en" ∉ existingOf (fun _ => none)
      { language := ["en", "en"], common_models := false, target_directory := "t",
        output := "o", data_table := none } ∧
    ("t" ++ "/" ++ (langEntry "English" "english").jar_name) ∈
      ["t/stanford-corenlp-4.5.10-models-english.jar"] ∧
    (main (fun _ => none) ["t/stanford-corenlp-4.5.10-models-english.jar"]
      (fun _ => false) (fun s => s)
      { language := ["en", "en"], common_models := false, target_directory := "t",
        output := "o", data_table := none }).entries.countP
      (fun e => e.lang_code == "en") = 2 := by
  refine ⟨by decide, by decide, by decide, by decide⟩

/-- Claim C4 (amended): for a requested code not in the existing set whose
destination file is already on disk, no download is attempted for it and
one RegisteredEntry per occurrence of the code in the request references
the file's absolute path — in particular exactly one when the code is
requested exactly once. -/
theorem existing_file_no_download_registered (files : String → Option (List String))
    (fs0 : List String) (fo : String → Bool) (ap : String → String) (args : Args)
    (c : String) (mi : ModelEntry)
    (hval : (args.language.all fun x => (lookupModel x).isSome) = true)
    (hex : c ∉ existingOf files args)
    (hl : lookupModel c = some mi)
    (hfile : args.target_directory ++ "/" ++ mi.jar_name ∈ fs0) :
    mi.url ∉ (main files fs0 fo ap args).downloads ∧
    (main files fs0 fo ap args).entries.countP (fun e => e.lang_code == c) =
      args.language.count c ∧
    ∀ e ∈ (main files fs0 fo ap args).entries, e.lang_code = c →
      e.models_path = ap (args.target_directory ++ "/" ++ mi.jar_name) := by
  by_cases h2 : (args.language.isEmpty && !args.common_models)
  · rw [main_usage_empty files fs0 fo ap args h2]
    have hemp : args.language = [] := by
      simpa [List.isEmpty_iff] using (by simpa using h2 : _ ∧ _).1
    exact ⟨by simp [usageResult], by simp [usageResult, hemp], by simp [usageResult]⟩
  · rw [main_ok files fs0 fo ap args hval (by simpa using h2)]
    refine ⟨?_, ?_, ?_⟩
    · have hst1fs : args.target_directory ++ "/" ++ mi.jar_name ∈
          (runSt1 files fs0 fo ap args).fs := runSt1_fs_mono files fs0 fo ap args _ hfile
      have hst1dl : mi.url ∉ (runSt1 files fs0 fo ap args).downloads := by
        intro hu
        have := runSt1_downloads_spec files fs0 fo ap args _ hu
        exact url_common_ne (c, mi) (lookup_mem hl) this
      rcases @foldl_no_download (existingOf files args) args.target_directory ap fo
        args.language (runSt1 files fs0 fo ap args) c mi hl hst1fs hst1dl
        with ⟨hnd, _⟩
      unfold runSt
      exact hnd
    · have hstart : args.target_directory ++ "/" ++ mi.jar_name ∈
          (runSt1 files fs0 fo ap args).fs ∨ fo mi.url = true :=
        Or.inl (runSt1_fs_mono files fs0 fo ap args _ hfile)
      rcases @foldl_register_all (existingOf files args) args.target_directory ap fo
        args.language (runSt1 files fs0 fo ap args) c mi hex hl hstart
        with ⟨hcount, _⟩
      unfold runSt
      rw [hcount]
      have hz : (runSt1 files fs0 fo ap args).entries.countP
          (fun e => e.lang_code == c) = 0 := by
        refine List.countP_eq_zero.mpr ?_
        intro e he hbeq
        have hc' : e.lang_code = c := by simpa using hbeq
        rcases runSt1_entries_spec files fs0 fo ap args with hnil | ⟨_, _, hone⟩
        · rw [hnil] at he; exact absurd he (by simp)
        · rw [hone] at he
          have : e = commonReg args.target_directory ap := by simpa using he
          rw [this] at hc'
          have : c = "common" := by simpa [commonReg] using hc'.symm
          rw [this, lookup_common_none] at hl
          exact absurd hl (by simp)
      rw [hz, Nat.zero_add]
    · intro e he heq
      rcases foldl_entries_spec (existingOf files args) args.target_directory ap fo he
        with hin | ⟨c', _, _, mi', hlk', rfl⟩
      · rcases runSt1_entries_spec files fs0 fo ap args with hnil | ⟨_, _, hone⟩
        · rw [hnil] at hin; exact absurd hin (by simp)
        · rw [hone] at hin
          have : e = commonReg args.target_directory ap := by simpa using hin
          rw [this] at heq
          have : c = "common" := by simpa [commonReg] using heq.symm
          rw [this, lookup_common_none] at hl
          exact absurd hl (by simp)
      · have hc' : c' = c := by simpa [langReg] using heq
        rw [hc', hl] at hlk'
        have : mi' = mi := by injection hlk' with h; exact h.symm
        rw [this] at *
        simp [langReg]

/-- Witness for C4 (amended): `"en"` requested once with its file on disk:
no download for it and exactly one entry with the file's absolute path. -/
theorem existing_file_no_download_registered_witness :
    (langEntry "English" "english").url ∉
      (main (fun _ => none) ["t/stanford-corenlp-4.5.10-models-english.jar"]
        (fun _ => false) (fun s => s)
        { language := ["en"], common_models := false, target_directory := "t",
          output := "o", data_table := none }).downloads ∧
    (main (fun _ => none) ["t/stanford-corenlp-4.5.10-models-english.jar"]
      (fun _ => false) (fun s => s)
      { language := ["en"], common_models := false, target_directory := "t",
        output := "o", data_table := none }).entries.countP
      (fun e => e.lang_code == "en") = 1 ∧
    ∀ e ∈ (main (fun _ => none) ["t/stanford-corenlp-4.5.10-models-english.jar"]
      (fun _ => false) (fun s => s)
      { language := ["en"], common_models := false, target_directory := "t",
        output := "o", data_table := none }).entries, e.lang_code = "en" →
      e.models_path = (fun s => s) ("t" ++ "/" ++ (langEntry "English" "english").jar_name) :=
  existing_file_no_download_registered (fun _ => none)
    ["t/stanford-corenlp-4.5.10-models-english.jar"] (fun _ => false) (fun s => s)
    { language := ["en"], common_models := false, target_directory := "t",
      output := "o", data_table := none }
    "en" (langEntry "English" "english") (by decide) (by decide) (by decide) (by decide)

/-- Claim C2: when the download of a requested code always fails and no
destination file pre-exists for it, no entry with that code appears, and
the rest of the run is unaffected: the output entries equal those of the
run with that code's occurrences removed from the request. -/
theorem failed_language_download_omitted (files : String → Option (List String))
    (fs0 : List String) (fo : String → Bool) (ap : String → String) (args : Args)
    (c : String) (mi : ModelEntry)
    (hl : lookupModel c = some mi)
    (hfo : fo mi.url = false)
    (hfile : args.target_directory ++ "/" ++ mi.jar_name ∉ fs0) :
    (∀ e ∈ (main files fs0 fo ap args).entries, e.lang_code ≠ c) ∧
    (main files fs0 fo ap args).entries =
      (main files fs0 fo ap
        { args with language := args.language.filter (fun x => x ≠ c) }).entries := by
  have hcne : c ≠ "common" := by
    intro h
    rw [h, lookup_common_none] at hl
    exact absurd hl (by simp)
  have hmain2 : (main files fs0 fo ap args).entries =
      (main files fs0 fo ap
        { args with language := args.language.filter (fun x => x ≠ c) }).entries := by
    by_cases h1 : (args.language.all fun x => (lookupModel x).isSome)
    · have hval' : ((args.language.filter (fun x => x ≠ c)).all
          fun x => (lookupModel x).isSome) = true := by
        refine List.all_eq_true.mpr ?_
        intro x hx
        exact List.all_eq_true.mp h1 x (List.mem_of_mem_filter hx)
      by_cases h2 : (args.language.isEmpty && !args.common_models)
      · have hemp : args.language = [] := by
          simpa [List.isEmpty_iff] using (by simpa using h2 : _ ∧ _).1
        rw [main_usage_empty files fs0 fo ap args h2,
          main_usage_empty files fs0 fo ap _ (by simp [hemp, (by simpa using h2 : _ ∧ _).2])]
      · rw [main_ok files fs0 fo ap args h1 (by simpa using h2)]
        by_cases h2' : (((args.language.filter (fun x => x ≠ c)).isEmpty &&
            !args.common_models) = true)
        · have hcm : args.common_models = false := by
            simpa using (by simpa using h2' : _ ∧ _).2
          have hnil : args.language.filter (fun x => x ≠ c) = [] := by
            simpa [List.isEmpty_iff] using (by simpa using h2' : _ ∧ _).1
          rw [main_usage_empty files fs0 fo ap _ (by simpa [hnil] using h2')]
          have hst1 : runSt1 files fs0 fo ap args =
              { fs := fs0, downloads := [], entries := [] } := by
            unfold runSt1
            simp [hcm]
          rcases foldl_skip_failed (existingOf files args) args.target_directory ap fo
            hl hfo args.language { fs := fs0, downloads := [], entries := [] }
            { fs := fs0, downloads := [], entries := [] } rfl rfl hfile with ⟨_, hen⟩
          unfold runSt
          rw [hst1, hen, hnil]
          rfl
        · have hjpst1 : args.target_directory ++ "/" ++ mi.jar_name ∉
              (runSt1 files fs0 fo ap args).fs := by
            intro hjp
            rcases runSt1_fs_spec files fs0 fo ap args _ hjp with h | h
            · exact hfile h
            · exact jar_common_ne (c, mi) (lookup_mem hl) (path_inj h)
          rcases foldl_skip_failed (existingOf files args) args.target_directory ap fo
            hl hfo args.language (runSt1 files fs0 fo ap args)
            (runSt1 files fs0 fo ap args) rfl rfl hjpst1 with ⟨_, hen⟩
          rw [main_ok files fs0 fo ap _ hval' (by simpa using h2')]
          unfold runSt
          exact hen
    · have hF : (args.language.all fun x => (lookupModel x).isSome) = false := by
        rwa [Bool.not_eq_true] at h1
      rcases List.all_eq_false.mp hF with ⟨bad, hbadl, hbad⟩
      have hbadc : bad ≠ c := by
        intro h
        rw [h, hl] at hbad
        exact hbad (by simp)
      have hF' : ((args.language.filter (fun x => x ≠ c)).all
          fun x => (lookupModel x).isSome) = false := by
        refine List.all_eq_false.mpr ⟨bad, ?_, hbad⟩
        exact List.mem_filter.mpr ⟨hbadl, by simp [hbadc]⟩
      rw [main_usage_invalid files fs0 fo ap args hF,
        main_usage_invalid files fs0 fo ap _ hF']
  refine ⟨?_, hmain2⟩
  intro e he heq
  rw [hmain2] at he
  by_cases h1' : (((args.language.filter (fun x => x ≠ c)).all
      fun x => (lookupModel x).isSome) = true)
  · by_cases h2' : (((args.language.filter (fun x => x ≠ c)).isEmpty &&
        !args.common_models) = true)
    · rw [main_usage_empty files fs0 fo ap _ h2'] at he
      exact absurd he (by simp [usageResult])
    · rw [main_ok files fs0 fo ap _ h1' (by simpa using h2')] at he
      rcases foldl_entries_spec (existingOf files
          { args with language := args.language.filter (fun x => x ≠ c) })
          args.target_directory ap fo he with hin | ⟨c', hc'm, _, mi', _, rfl⟩
      · rcases runSt1_entries_spec files fs0 fo ap
          { args with language := args.language.filter (fun x => x ≠ c) }
          with hnil | ⟨_, _, hone⟩
        · rw [hnil] at hin; exact absurd hin (by simp)
        · rw [hone] at hin
          have : e = commonReg args.target_directory ap := by simpa using hin
          rw [this] at heq
          exact hcne (by simpa [commonReg] using heq.symm)
      · have : c' ≠ c := by simpa using (List.mem_filter.mp hc'm).2
        exact this (by simpa [langReg] using heq)
  · rw [main_usage_invalid files fs0 fo ap _ (by rwa [Bool.not_eq_true] at h1')] at he
    exact absurd he (by simp [usageResult])

/-- Witness for C2: the German download fails on a fresh run requesting
`["de", "fr"]`; the conclusion instantiates to: no `de` entry, and the
entries equal those of the run requesting only `["fr"]`. -/
theorem failed_language_download_omitted_witness :
    (∀ e ∈ (main (fun _ => none) [] (fun u => !(u == (langEntry "German" "german").url))
      (fun s => s)
      { language := ["de", "fr"], common_models := false, target_directory := "t",
        output := "o", data_table := none }).entries, e.lang_code ≠ "de") ∧
    (main (fun _ => none) [] (fun u => !(u == (langEntry "German" "german").url))
      (fun s => s)
      { language := ["de", "fr"], common_models := false, target_directory := "t",
        output := "o", data_table := none }).entries =
      (main (fun _ => none) [] (fun u => !(u == (langEntry "German" "german").url))
        (fun s => s)
        { language := ["de", "fr"].filter (fun x => x ≠ "de"), common_models := false,
          target_directory := "t", output := "o", data_table := none }).entries :=
  failed_language_download_omitted (fun _ => none) []
    (fun u => !(u == (langEntry "German" "german").url)) (fun s => s)
    { language := ["de", "fr"], common_models := false, target_directory := "t",
      output := "o", data_table := none }
    "de" (langEntry "German" "german") (by decide) (by decide) (by decide)

end CoreNLP
